import Mathlib

/-!
# STAP++ `CDomain`: equation numbering, skyline layout and load assembly

A shallow embedding of the member functions of `CDomain` in
`src/cpp/Domain.cpp` that build the linear system of the finite-element
model:

* `CalculateEquationNumber` (global equation numbers from boundary codes),
* `CalculateColumnHeights` and `CalculateDiagnoalAddress` (skyline layout),
* `AssembleForce` (concentrated loads into the force vector).

Conventions of the embedding.

* A C array is a `List`; an array access is `readAt` or `writeAt`, which
  returns a `Fault` when the index lies outside the array. A fault stands
  for the undefined behaviour of the C++ program at that access.
* `unsigned int` is a natural number below `UINT_SIZE = 2 ^ 32`; the
  arithmetic that can leave this range (`NEQ++`, `x - 1`, the sums of
  `CalculateDiagnoalAddress`) is reduced modulo `UINT_SIZE`.
* `double` magnitudes are taken as exact numbers: a type `R` with a zero and
  an addition (an additive monoid in the theorems); the samples use `ℤ`.
* A counting loop `for (i = a; i < N; i++)` is a structural recursion on the
  number of remaining iterations together with the running index.
-/

namespace Stap

/-! ## Machine model -/

/-- Number of values of the C++ type `unsigned int`. -/
def UINT_SIZE : Nat := 2 ^ 32

/-- Unsigned addition `a + b` of two `unsigned int` values. -/
def uadd (a b : Nat) : Nat := (a + b) % UINT_SIZE

/-- Unsigned subtraction `a - b` of two `unsigned int` values (wraps below 0). -/
def usub (a b : Nat) : Nat := (a % UINT_SIZE + UINT_SIZE - b % UINT_SIZE) % UINT_SIZE

/-- The arrays of `CDomain` that the embedded functions index. -/
inductive Mem where
  | NodeList
  | bcode
  | LoadCases
  | node
  | dof
  | load
  | Force
  | ColumnHeights
  | DiagonalAddress
deriving DecidableEq, Repr

/-- An access to array `array` at position `index`, which is outside the array. -/
inductive Fault where
  | outOfBounds (array : Mem) (index : Nat)
deriving DecidableEq, Repr

deriving instance DecidableEq for Except

/-- Read `a[i]`. -/
def readAt {α : Type} (arr : Mem) (a : List α) (i : Nat) : Except Fault α :=
  match a[i]? with
  | some v => .ok v
  | none => .error (.outOfBounds arr i)

/-- Write `a[i] = v`. -/
def writeAt {α : Type} (arr : Mem) (a : List α) (i : Nat) (v : α) : Except Fault (List α) :=
  if i < a.length then .ok (a.set i v) else .error (.outOfBounds arr i)

/-! ## Data model -/

/-- The part of `CNode` used by `CDomain`: the array `bcode[NDF]`. Before the
numbering a nonzero entry flags a constrained degree of freedom; after it the
entry is the global equation number (0 for a constrained one). The length of
the list is `CNode::NDF`. -/
structure CNode where
  bcode : List Nat
deriving DecidableEq, Repr

/-- The part of `CElement` used by the layout: the local-to-global list of
equation numbers of the element (0 for a constrained degree of freedom). -/
structure CElement where
  LocationMatrix : List Nat
deriving DecidableEq, Repr

/-- One load case (`CLoadCaseData`): `nloads` concentrated loads, load `lnum`
acting at node `node[lnum]` in direction `dof[lnum]` (both 1-based) with
magnitude `load[lnum]`. -/
structure CLoadCaseData (R : Type) where
  nloads : Nat
  node : List Nat
  dof : List Nat
  load : List R
deriving DecidableEq

/-! ## `CDomain::CalculateEquationNumber` -/

/-- The inner loop `for (dof = 0; dof < CNode::NDF; dof++)` over the `bcode`
array of one node: returns the counter `NEQ` and the rewritten array. -/
def numberDofs (NEQ : Nat) : List Nat → Nat × List Nat
  | [] => (NEQ, [])
  | b :: bs =>
    if b ≠ 0 then
      let r := numberDofs NEQ bs
      (r.1, 0 :: r.2)
    else
      let r := numberDofs (uadd NEQ 1) bs
      (r.1, uadd NEQ 1 :: r.2)

/-- The outer loop `for (np = 0; np < NUMNP; np++)` over `NodeList`. -/
def numberNodes (NEQ : Nat) : List CNode → Nat × List CNode
  | [] => (NEQ, [])
  | nd :: nds =>
    let r := numberDofs NEQ nd.bcode
    let s := numberNodes r.1 nds
    (s.1, { bcode := r.2 } :: s.2)

/-- The function `CDomain::CalculateEquationNumber`: returns `NEQ` and the renumbered
`NodeList` (`NUMNP` is the length of the list). -/
def CalculateEquationNumber (NodeList : List CNode) : Nat × List CNode :=
  numberNodes 0 NodeList

/-- The entry `NodeList[np].bcode[dof]`, when it exists. -/
def bcodeAt (NodeList : List CNode) (np dof : Nat) : Option Nat :=
  match NodeList[np]? with
  | some nd => nd.bcode[dof]?
  | none => none

/-- Number of free (zero) entries of a `bcode` array. -/
def freeCount (bs : List Nat) : Nat := bs.count 0

/-- Number of free degrees of freedom of a node list. -/
def freeTotal : List CNode → Nat
  | [] => 0
  | nd :: nds => freeCount nd.bcode + freeTotal nds

/-- Position of `(np, dof)` among the free degrees of freedom in node-major,
DOF-minor order: the number of free degrees of freedom at or before it. -/
def freeRank (NodeList : List CNode) (np dof : Nat) : Nat :=
  freeTotal (NodeList.take np) +
    match NodeList[np]? with
    | some nd => freeCount (nd.bcode.take (dof + 1))
    | none => 0

/-! ## `CDomain::CalculateColumnHeights` -/

/-- Smallest nonzero entry of a local-to-global list, if there is one. -/
def minNonzero : List Nat → Option Nat
  | [] => none
  | e :: es =>
    match minNonzero es with
    | none => if e = 0 then none else some e
    | some m => if e ≠ 0 ∧ e < m then some e else some m

/-- The update of the column heights for the equations of one element, given
the smallest nonzero equation number `m` of the element. -/
def updateHeights (m : Nat) : List Nat → List Nat → Except Fault (List Nat)
  | [], H => .ok H
  | e :: es, H =>
    if m < e then
      match readAt .ColumnHeights H (e - 1) with
      | .error f => .error f
      | .ok h =>
        match writeAt .ColumnHeights H (e - 1) (max h (e - m)) with
        | .error f => .error f
        | .ok H1 => updateHeights m es H1
    else updateHeights m es H

/-- Modelled from the spec: `CElement::CalculateColumnHeight`, whose source
(the element classes) is not among the source files. The spec gives the
update: `m` is the minimum nonzero equation number among the local-to-global
entries of the element; for every equation `e` of the element with `e > m`,
`H[e-1] = max(H[e-1], e - m)`. -/
def CalculateColumnHeight (el : CElement) (ColumnHeights : List Nat) :
    Except Fault (List Nat) :=
  match minNonzero el.LocationMatrix with
  | none => .ok ColumnHeights
  | some m => updateHeights m el.LocationMatrix ColumnHeights

/-- The loop `for (Ele = 0; Ele < NUME[EleGrp]; Ele++)` over one group. -/
def elementLoop : List CElement → List Nat → Except Fault (List Nat)
  | [], H => .ok H
  | el :: els, H =>
    match CalculateColumnHeight el H with
    | .error f => .error f
    | .ok H1 => elementLoop els H1

/-- The loop `for (EleGrp = 0; EleGrp < NUMEG; EleGrp++)` over the groups. -/
def groupLoop : List (List CElement) → List Nat → Except Fault (List Nat)
  | [], H => .ok H
  | g :: gs, H =>
    match elementLoop g H with
    | .error f => .error f
    | .ok H1 => groupLoop gs H1

/-- The loop `for (i = 1; i < NEQ; i++) if (MK < ColumnHeights[i]) MK = ColumnHeights[i];`
with `n` iterations left. -/
def maxLoop (ColumnHeights : List Nat) : Nat → Nat → Nat → Except Fault Nat
  | 0, _, MK => .ok MK
  | n + 1, i, MK =>
    match readAt .ColumnHeights ColumnHeights i with
    | .error f => .error f
    | .ok h => maxLoop ColumnHeights n (i + 1) (if MK < h then h else MK)

/-- The function `CDomain::CalculateColumnHeights`: returns the column heights
and `MK`. -/
def CalculateColumnHeights (NEQ : Nat) (ElementSetList : List (List CElement))
    (ColumnHeights : List Nat) : Except Fault (List Nat × Nat) :=
  match groupLoop ElementSetList ColumnHeights with
  | .error f => .error f
  | .ok H =>
    match readAt .ColumnHeights H 0 with
    | .error f => .error f
    | .ok MK0 =>
      match maxLoop H (NEQ - 1) 1 MK0 with
      | .error f => .error f
      | .ok MK => .ok (H, uadd MK 1)

/-! ## `CDomain::CalculateDiagnoalAddress` -/

/-- The loop `for (col = 1; col <= NEQ; col++)` with `n` iterations left:
`DiagonalAddress[col] = DiagonalAddress[col - 1] + ColumnHeights[col-1] + 1`. -/
def diagLoop (ColumnHeights : List Nat) : Nat → Nat → List Nat → Except Fault (List Nat)
  | 0, _, DA => .ok DA
  | n + 1, col, DA =>
    match readAt .DiagonalAddress DA (col - 1) with
    | .error f => .error f
    | .ok prev =>
      match readAt .ColumnHeights ColumnHeights (col - 1) with
      | .error f => .error f
      | .ok h =>
        match writeAt .DiagonalAddress DA col (uadd (uadd prev h) 1) with
        | .error f => .error f
        | .ok DA1 => diagLoop ColumnHeights n (col + 1) DA1

/-- The function `CDomain::CalculateDiagnoalAddress`: returns `DiagonalAddress`
and `NWK`. -/
def CalculateDiagnoalAddress (NEQ : Nat) (ColumnHeights DiagonalAddress : List Nat) :
    Except Fault (List Nat × Nat) :=
  match writeAt .DiagonalAddress DiagonalAddress 0 1 with
  | .error f => .error f
  | .ok DA0 =>
    match diagLoop ColumnHeights NEQ 1 DA0 with
    | .error f => .error f
    | .ok DA =>
      match readAt .DiagonalAddress DA NEQ with
      | .error f => .error f
      | .ok last =>
        match readAt .DiagonalAddress DA 0 with
        | .error f => .error f
        | .ok first => .ok (DA, usub last first)

/-! ## `CDomain::AssembleForce` -/

/-- The loop of `clear(a, N)` with `n` iterations left: `a[i] = 0`. -/
def clearLoop {R : Type} [Zero R] (arr : Mem) : Nat → Nat → List R → Except Fault (List R)
  | 0, _, a => .ok a
  | n + 1, i, a =>
    match writeAt arr a i 0 with
    | .error f => .error f
    | .ok a1 => clearLoop arr n (i + 1) a1

/-- The function template `clear(a, N)`. -/
def clear {R : Type} [Zero R] (arr : Mem) (a : List R) (N : Nat) : Except Fault (List R) :=
  clearLoop arr N 0 a

/-- The loop `for (lnum = 0; lnum < LoadData->nloads; lnum++)` of
`AssembleForce` with `n` iterations left. -/
def forceLoop {R : Type} [Add R] (NodeList : List CNode) (LoadData : CLoadCaseData R) :
    Nat → Nat → List R → Except Fault (List R)
  | 0, _, Force => .ok Force
  | n + 1, lnum, Force =>
    match readAt .node LoadData.node lnum with
    | .error f => .error f
    | .ok nd =>
      match readAt .NodeList NodeList (usub nd 1) with
      | .error f => .error f
      | .ok cnode =>
        match readAt .dof LoadData.dof lnum with
        | .error f => .error f
        | .ok d =>
          match readAt .bcode cnode.bcode (usub d 1) with
          | .error f => .error f
          | .ok dof =>
            match readAt .load LoadData.load lnum with
            | .error f => .error f
            | .ok mag =>
              match readAt .Force Force (usub dof 1) with
              | .error f => .error f
              | .ok old =>
                match writeAt .Force Force (usub dof 1) (old + mag) with
                | .error f => .error f
                | .ok Force1 => forceLoop NodeList LoadData n (lnum + 1) Force1

/-- The function `CDomain::AssembleForce(LoadCase)`: returns the boolean result and the
force vector. -/
def AssembleForce {R : Type} [Zero R] [Add R] (NLCASE : Nat)
    (LoadCases : List (CLoadCaseData R)) (NodeList : List CNode)
    (NEQ : Nat) (Force : List R) (LoadCase : Nat) : Except Fault (Bool × List R) :=
  if NLCASE < LoadCase then .ok (false, Force)
  else
    match clear .Force Force NEQ with
    | .error f => .error f
    | .ok Force0 =>
      match readAt .LoadCases LoadCases (usub LoadCase 1) with
      | .error f => .error f
      | .ok LoadData =>
        match forceLoop NodeList LoadData LoadData.nloads 0 Force0 with
        | .error f => .error f
        | .ok Force1 => .ok (true, Force1)

/-! ## Specification-level functions -/

/-- The prefix sum that the diagonal addresses are meant to be:
`1 + k + (H[0] + ... + H[k-1])`. -/
def diagonalOf (H : List Nat) (k : Nat) : Nat := 1 + k + (H.take k).sum

/-- The pair `(r, c)` (0-based, `c ≤ r`) lies within the skyline given by the
column heights `H`: `r < NEQ` and `r - c ≤ H[r]`. -/
def inSkyline (H : List Nat) (r c : Nat) : Prop :=
  c ≤ r ∧ r < H.length ∧ r - c ≤ H.getD r 0

instance (H : List Nat) (r c : Nat) : Decidable (inSkyline H r c) := by
  unfold inSkyline
  infer_instance

/-- Modelled from the spec: the addressing function of the skyline storage,
`offset(r, c) = diagonalAddress[r] - (r - c)`, whose source (the skyline
matrix class) is not among the source files. -/
def offset (DiagonalAddress : List Nat) (r c : Nat) : Option Nat :=
  match DiagonalAddress[r]? with
  | some d => some (d - (r - c))
  | none => none

/-- The position `diagonalAddress[r] + (r - c)`, counted upwards from the
diagonal entry of column `r`. -/
def offsetUp (DiagonalAddress : List Nat) (r c : Nat) : Option Nat :=
  match DiagonalAddress[r]? with
  | some d => some (d + (r - c))
  | none => none

/-- The contribution `e - m` of one element to the height of column `e`: `m`
is the smallest nonzero equation number of the element; 0 when the element
does not contain `e`. -/
def elementHeight (el : CElement) (e : Nat) : Nat :=
  match minNonzero el.LocationMatrix with
  | some m => if e ∈ el.LocationMatrix then e - m else 0
  | none => 0

/-- The maximum of `e - m` over all elements that contain equation `e`
(0 if there is none). -/
def expectedHeight : List CElement → Nat → Nat
  | [], _ => 0
  | el :: els, e => max (elementHeight el e) (expectedHeight els e)

/-- The equation number `NodeList[node[l] - 1].bcode[dof[l] - 1]` of load `l`
of a load case, when the load, the node and the direction exist. -/
def equationOfLoad {R : Type} (NodeList : List CNode) (LoadData : CLoadCaseData R) (l : Nat) :
    Option Nat :=
  match LoadData.node[l]?, LoadData.dof[l]? with
  | some nd, some d => bcodeAt NodeList (nd - 1) (d - 1)
  | _, _ => none

/-- Load `l` of the load case exists and references an existing node, an
existing direction of it and a free degree of freedom, with equation number
in `1 .. NEQ`. -/
def validLoad {R : Type} (NodeList : List CNode) (NEQ : Nat) (LoadData : CLoadCaseData R)
    (l : Nat) :
    Prop :=
  ∃ nd d mag eq, LoadData.node[l]? = some nd ∧ LoadData.dof[l]? = some d ∧
    LoadData.load[l]? = some mag ∧ 1 ≤ nd ∧ nd < UINT_SIZE ∧ 1 ≤ d ∧ d < UINT_SIZE ∧
    bcodeAt NodeList (nd - 1) (d - 1) = some eq ∧ 1 ≤ eq ∧ eq ≤ NEQ

/-- Load `l` of the load case exists and references an existing node and an
existing direction of it, which is constrained (equation number 0). -/
def constrainedLoad {R : Type} (NodeList : List CNode) (LoadData : CLoadCaseData R)
    (l : Nat) : Prop :=
  ∃ nd d mag, LoadData.node[l]? = some nd ∧ LoadData.dof[l]? = some d ∧
    LoadData.load[l]? = some mag ∧ 1 ≤ nd ∧ nd < UINT_SIZE ∧ 1 ≤ d ∧ d < UINT_SIZE ∧
    bcodeAt NodeList (nd - 1) (d - 1) = some 0

/-- Sum of the magnitudes of the loads `l` with `lnum ≤ l < lnum + n` whose
degree of freedom has equation number `e`. -/
def loadSumRange {R : Type} [Zero R] [Add R] (NodeList : List CNode)
    (LoadData : CLoadCaseData R) (e : Nat) (lnum n : Nat) : R :=
  (((List.range' lnum n).filter
    (fun l => decide (equationOfLoad NodeList LoadData l = some e))).map
    (fun l => LoadData.load.getD l 0)).sum

/-- Sum of the magnitudes of exactly those loads of the load case whose
degree of freedom has equation number `e`. -/
def loadSum {R : Type} [Zero R] [Add R] (NodeList : List CNode)
    (LoadData : CLoadCaseData R) (e : Nat) : R :=
  loadSumRange NodeList LoadData e 0 LoadData.nloads

/-! ## Sample inputs -/

/-- A node list with three nodes of three degrees of freedom each. -/
def sampleNodes : List CNode :=
  [{ bcode := [1, 0, 0] }, { bcode := [0, 1, 0] }, { bcode := [1, 1, 1] }]

/-- The node list `sampleNodes` after the numbering: `NEQ = 4`. -/
def numberedNodes : List CNode :=
  [{ bcode := [0, 1, 2] }, { bcode := [3, 0, 4] }, { bcode := [0, 0, 0] }]

/-- A load case on `numberedNodes` with three loads on free degrees of
freedom, two of them on the same one. -/
def sampleLoads : CLoadCaseData ℤ :=
  { nloads := 3, node := [1, 2, 1], dof := [2, 3, 2], load := [5, 7, 11] }

/-- A load case on `numberedNodes` whose second load acts on the constrained
degree of freedom in direction 1 of node 3. -/
def constrainedLoads : CLoadCaseData ℤ :=
  { nloads := 2, node := [1, 3], dof := [2, 1], load := [5, 7] }

/-- One group with one two-node element whose degrees of freedom map to the
equations 3 and 5. -/
def sampleElements : List (List CElement) :=
  [[{ LocationMatrix := [3, 5] }]]

/-- One group with one bar element between two fully constrained nodes. -/
def constrainedElements : List (List CElement) :=
  [[{ LocationMatrix := [0, 0, 0, 0, 0, 0] }]]

/-! ## Lemmas on counting free degrees of freedom -/

theorem freeCount_nil : freeCount [] = 0 := rfl

theorem freeCount_cons (b : Nat) (bs : List Nat) :
    freeCount (b :: bs) = (if b = 0 then 1 else 0) + freeCount bs := by
  unfold freeCount
  rw [List.count_cons]
  by_cases h : b = 0 <;> simp [h, Nat.add_comm]

theorem freeCount_take_le (bs : List Nat) (i : Nat) :
    freeCount (bs.take i) ≤ freeCount bs := by
  induction bs generalizing i with
  | nil => simp
  | cons b bs ih =>
    cases i with
    | zero => simp [freeCount_nil]
    | succ i =>
      rw [List.take_succ_cons, freeCount_cons, freeCount_cons]
      exact Nat.add_le_add_left (ih i) _

theorem freeCount_take_pos (bs : List Nat) (i : Nat) (h : bs[i]? = some 0) :
    1 ≤ freeCount (bs.take (i + 1)) := by
  induction bs generalizing i with
  | nil => simp at h
  | cons b bs ih =>
    rw [List.take_succ_cons, freeCount_cons]
    cases i with
    | zero =>
      simp at h
      simp [h]
    | succ i =>
      simp at h
      have := ih i h
      omega

theorem freeCount_take_lt (bs : List Nat) (i j : Nat) (hij : i < j) (h : bs[j]? = some 0) :
    freeCount (bs.take (i + 1)) < freeCount (bs.take (j + 1)) := by
  induction bs generalizing i j with
  | nil => simp at h
  | cons b bs ih =>
    cases j with
    | zero => omega
    | succ j =>
      simp at h
      rw [List.take_succ_cons, List.take_succ_cons, freeCount_cons, freeCount_cons]
      cases i with
      | zero =>
        have := freeCount_take_pos bs j h
        simp [freeCount_nil]
        omega
      | succ i =>
        have := ih i j (by omega) h
        omega

theorem freeCount_take_surj (bs : List Nat) (e : Nat) (h1 : 1 ≤ e) (h2 : e ≤ freeCount bs) :
    ∃ i, bs[i]? = some 0 ∧ freeCount (bs.take (i + 1)) = e := by
  induction bs generalizing e with
  | nil => simp [freeCount_nil] at h2; omega
  | cons b bs ih =>
    rw [freeCount_cons] at h2
    by_cases hb : b = 0
    · subst hb
      by_cases he : e = 1
      · exact ⟨0, by simp, by simp [freeCount_cons, freeCount_nil, he]⟩
      · obtain ⟨i, hi, hc⟩ := ih (e - 1) (by omega) (by simp at h2; omega)
        refine ⟨i + 1, by simpa using hi, ?_⟩
        rw [List.take_succ_cons, freeCount_cons, hc]
        simp
        omega
    · simp [hb] at h2
      obtain ⟨i, hi, hc⟩ := ih e h1 h2
      refine ⟨i + 1, by simpa using hi, ?_⟩
      rw [List.take_succ_cons, freeCount_cons, hc]
      simp [hb]

/-! ## Lemmas on `numberDofs` -/

theorem uadd_one_of_lt (n : Nat) (h : n + 1 < UINT_SIZE) : uadd n 1 = n + 1 := by
  unfold uadd
  exact Nat.mod_eq_of_lt h

theorem numberDofs_fst (n : Nat) (bs : List Nat) (h : n + freeCount bs < UINT_SIZE) :
    (numberDofs n bs).1 = n + freeCount bs := by
  induction bs generalizing n with
  | nil => simp [numberDofs, freeCount_nil]
  | cons b bs ih =>
    rw [freeCount_cons] at h ⊢
    by_cases hb : b = 0
    · simp only [hb, if_true] at h ⊢
      have hu : uadd n 1 = n + 1 := uadd_one_of_lt n (by omega)
      simp only [numberDofs, ne_eq, not_true_eq_false, if_false, hu]
      rw [ih (n + 1) (by omega)]
      omega
    · simp only [hb, if_false] at h ⊢
      simp only [numberDofs, ne_eq, hb, not_false_eq_true, if_true]
      rw [ih n (by omega)]
      omega

theorem numberDofs_length (n : Nat) (bs : List Nat) :
    (numberDofs n bs).2.length = bs.length := by
  induction bs generalizing n with
  | nil => simp [numberDofs]
  | cons b bs ih =>
    by_cases hb : b = 0
    · simp [numberDofs, hb, ih]
    · simp [numberDofs, hb, ih]

theorem numberDofs_get (n : Nat) (bs : List Nat) (h : n + freeCount bs < UINT_SIZE)
    (i b : Nat) (hi : bs[i]? = some b) :
    (numberDofs n bs).2[i]? =
      some (if b ≠ 0 then 0 else n + freeCount (bs.take (i + 1))) := by
  induction bs generalizing n i with
  | nil => simp at hi
  | cons c bs ih =>
    rw [freeCount_cons] at h
    by_cases hc : c = 0
    · simp only [hc, if_true] at h
      have hu : uadd n 1 = n + 1 := uadd_one_of_lt n (by omega)
      subst hc
      cases i with
      | zero =>
        simp at hi
        subst hi
        simp [numberDofs, hu, freeCount_cons, freeCount_nil]
      | succ i =>
        simp at hi
        have := ih (n + 1) (by omega) i hi
        simp only [numberDofs, ne_eq, not_true_eq_false, if_false, hu,
          List.getElem?_cons_succ, this, List.take_succ_cons, freeCount_cons, if_true]
        by_cases hb : b = 0
        · simp [hb]; omega
        · simp [hb]
    · simp only [hc, if_false] at h
      cases i with
      | zero =>
        simp at hi
        subst hi
        simp [numberDofs, hc]
      | succ i =>
        simp at hi
        have := ih n (by omega) i hi
        simp only [numberDofs, ne_eq, hc, not_false_eq_true, if_true,
          List.getElem?_cons_succ, this, List.take_succ_cons, freeCount_cons, if_false]
        simp

/-! ## Lemmas on the node loop -/

theorem bcodeAt_cons_zero (nd : CNode) (nds : List CNode) (dof : Nat) :
    bcodeAt (nd :: nds) 0 dof = nd.bcode[dof]? := by
  simp [bcodeAt]

theorem bcodeAt_cons_succ (nd : CNode) (nds : List CNode) (np dof : Nat) :
    bcodeAt (nd :: nds) (np + 1) dof = bcodeAt nds np dof := by
  simp [bcodeAt]

theorem bcodeAt_nil (np dof : Nat) : bcodeAt [] np dof = none := by
  simp [bcodeAt]

theorem freeRank_cons_zero (nd : CNode) (nds : List CNode) (dof : Nat) :
    freeRank (nd :: nds) 0 dof = freeCount (nd.bcode.take (dof + 1)) := by
  simp [freeRank, freeTotal]

theorem freeRank_cons_succ (nd : CNode) (nds : List CNode) (np dof : Nat) :
    freeRank (nd :: nds) (np + 1) dof = freeCount nd.bcode + freeRank nds np dof := by
  simp [freeRank, freeTotal, Nat.add_assoc]

theorem freeRank_nil (np dof : Nat) : freeRank [] np dof = 0 := by
  simp [freeRank, freeTotal]

theorem freeRank_le (nds : List CNode) (np dof : Nat) :
    freeRank nds np dof ≤ freeTotal nds := by
  induction nds generalizing np with
  | nil => simp [freeRank_nil]
  | cons nd nds ih =>
    cases np with
    | zero =>
      rw [freeRank_cons_zero, freeTotal]
      have := freeCount_take_le nd.bcode (dof + 1)
      omega
    | succ np =>
      rw [freeRank_cons_succ, freeTotal]
      have := ih np
      omega

theorem freeRank_pos (nds : List CNode) (np dof : Nat) (h : bcodeAt nds np dof = some 0) :
    1 ≤ freeRank nds np dof := by
  induction nds generalizing np with
  | nil => simp [bcodeAt_nil] at h
  | cons nd nds ih =>
    cases np with
    | zero =>
      rw [bcodeAt_cons_zero] at h
      rw [freeRank_cons_zero]
      exact freeCount_take_pos nd.bcode dof h
    | succ np =>
      rw [bcodeAt_cons_succ] at h
      rw [freeRank_cons_succ]
      have := ih np h
      omega

theorem freeRank_lt (nds : List CNode) (np1 dof1 np2 dof2 : Nat)
    (hlex : np1 < np2 ∨ (np1 = np2 ∧ dof1 < dof2))
    (h2 : bcodeAt nds np2 dof2 = some 0) :
    freeRank nds np1 dof1 < freeRank nds np2 dof2 := by
  induction nds generalizing np1 np2 with
  | nil => simp [bcodeAt_nil] at h2
  | cons nd nds ih =>
    cases np2 with
    | zero =>
      rcases hlex with h | ⟨h, hd⟩
      · omega
      · subst h
        rw [bcodeAt_cons_zero] at h2
        rw [freeRank_cons_zero, freeRank_cons_zero]
        exact freeCount_take_lt nd.bcode dof1 dof2 hd h2
    | succ np2 =>
      rw [bcodeAt_cons_succ] at h2
      rw [freeRank_cons_succ]
      cases np1 with
      | zero =>
        rw [freeRank_cons_zero]
        have h3 := freeCount_take_le nd.bcode (dof1 + 1)
        have h4 := freeRank_pos nds np2 dof2 h2
        omega
      | succ np1 =>
        rw [freeRank_cons_succ]
        have := ih np1 np2 (by omega) h2
        omega

theorem freeRank_surj (nds : List CNode) (e : Nat) (h1 : 1 ≤ e) (h2 : e ≤ freeTotal nds) :
    ∃ np dof, bcodeAt nds np dof = some 0 ∧ freeRank nds np dof = e := by
  induction nds generalizing e with
  | nil => simp [freeTotal] at h2; omega
  | cons nd nds ih =>
    rw [freeTotal] at h2
    by_cases he : e ≤ freeCount nd.bcode
    · obtain ⟨i, hi, hc⟩ := freeCount_take_surj nd.bcode e h1 he
      exact ⟨0, i, by rw [bcodeAt_cons_zero]; exact hi, by rw [freeRank_cons_zero]; exact hc⟩
    · obtain ⟨np, dof, hb, hr⟩ := ih (e - freeCount nd.bcode) (by omega) (by omega)
      refine ⟨np + 1, dof, by rw [bcodeAt_cons_succ]; exact hb, ?_⟩
      rw [freeRank_cons_succ, hr]
      omega

theorem numberNodes_fst (n : Nat) (nds : List CNode) (h : n + freeTotal nds < UINT_SIZE) :
    (numberNodes n nds).1 = n + freeTotal nds := by
  induction nds generalizing n with
  | nil => simp [numberNodes, freeTotal]
  | cons nd nds ih =>
    rw [freeTotal] at h ⊢
    have h1 := numberDofs_fst n nd.bcode (by omega)
    simp only [numberNodes, h1]
    rw [ih _ (by omega)]
    omega

theorem numberNodes_length (n : Nat) (nds : List CNode) :
    (numberNodes n nds).2.length = nds.length := by
  induction nds generalizing n with
  | nil => simp [numberNodes]
  | cons nd nds ih => simp [numberNodes, ih]

theorem numberNodes_bcodeAt (n : Nat) (nds : List CNode) (h : n + freeTotal nds < UINT_SIZE)
    (np dof b : Nat) (hb : bcodeAt nds np dof = some b) :
    bcodeAt (numberNodes n nds).2 np dof =
      some (if b ≠ 0 then 0 else n + freeRank nds np dof) := by
  induction nds generalizing n np with
  | nil => simp [bcodeAt_nil] at hb
  | cons nd nds ih =>
    rw [freeTotal] at h
    cases np with
    | zero =>
      rw [bcodeAt_cons_zero] at hb
      simp only [numberNodes, bcodeAt_cons_zero, freeRank_cons_zero]
      exact numberDofs_get n nd.bcode (by omega) dof b hb
    | succ np =>
      rw [bcodeAt_cons_succ] at hb
      have h1 := numberDofs_fst n nd.bcode (by omega)
      simp only [numberNodes, bcodeAt_cons_succ, freeRank_cons_succ, h1]
      rw [ih _ (by omega) np hb]
      by_cases hz : b = 0
      · simp [hz]; omega
      · simp [hz]

theorem numberNodes_bcodeAt_none (n : Nat) (nds : List CNode) (np dof : Nat)
    (hb : bcodeAt nds np dof = none) :
    bcodeAt (numberNodes n nds).2 np dof = none := by
  induction nds generalizing n np with
  | nil => simp [numberNodes, bcodeAt_nil]
  | cons nd nds ih =>
    cases np with
    | zero =>
      rw [bcodeAt_cons_zero] at hb
      simp only [numberNodes, bcodeAt_cons_zero]
      rw [List.getElem?_eq_none_iff] at hb ⊢
      rw [numberDofs_length]
      exact hb
    | succ np =>
      rw [bcodeAt_cons_succ] at hb
      simp only [numberNodes, bcodeAt_cons_succ]
      exact ih _ np hb

/-! ## Lemmas on array accesses -/

theorem readAt_ok {α : Type} (arr : Mem) (a : List α) (i : Nat) (v : α)
    (h : a[i]? = some v) : readAt arr a i = .ok v := by
  simp [readAt, h]

theorem readAt_fault {α : Type} (arr : Mem) (a : List α) (i : Nat)
    (h : a.length ≤ i) : readAt arr a i = .error (.outOfBounds arr i) := by
  simp [readAt, List.getElem?_eq_none h]

theorem writeAt_ok {α : Type} (arr : Mem) (a : List α) (i : Nat) (v : α)
    (h : i < a.length) : writeAt arr a i v = .ok (a.set i v) := by
  simp [writeAt, h]

/-! ## Lemmas on the diagonal addresses -/

theorem diagonalOf_zero (H : List Nat) : diagonalOf H 0 = 1 := by
  simp [diagonalOf]

theorem diagonalOf_succ (H : List Nat) (k h : Nat) (hk : H[k]? = some h) :
    diagonalOf H (k + 1) = diagonalOf H k + h + 1 := by
  obtain ⟨hlt, hv⟩ := List.getElem?_eq_some.mp hk
  unfold diagonalOf
  rw [List.sum_take_succ H k hlt, hv]
  omega

theorem sum_take_le_succ (H : List Nat) (k : Nat) :
    (H.take k).sum ≤ (H.take (k + 1)).sum := by
  by_cases hk : k < H.length
  · rw [List.sum_take_succ H k hk]
    omega
  · rw [List.take_of_length_le (by omega), List.take_of_length_le (by omega)]

theorem sum_take_mono (H : List Nat) (i j : Nat) (hij : i ≤ j) :
    (H.take i).sum ≤ (H.take j).sum := by
  induction j with
  | zero =>
    have : i = 0 := by omega
    subst this
    exact Nat.le_refl _
  | succ j ih =>
    by_cases h : i = j + 1
    · subst h
      exact Nat.le_refl _
    · exact Nat.le_trans (ih (by omega)) (sum_take_le_succ H j)

theorem diagonalOf_lt (H : List Nat) (i j : Nat) (hij : i < j) :
    diagonalOf H i < diagonalOf H j := by
  have := sum_take_mono H i j (by omega)
  unfold diagonalOf
  omega

theorem diagonalOf_le (H : List Nat) (i j : Nat) (hij : i ≤ j) :
    diagonalOf H i ≤ diagonalOf H j := by
  have := sum_take_mono H i j hij
  unfold diagonalOf
  omega

theorem diagonalOf_length (H : List Nat) :
    diagonalOf H H.length = 1 + H.length + H.sum := by
  simp [diagonalOf]

theorem diagLoop_spec (H : List Nat) (hfit : diagonalOf H H.length < UINT_SIZE)
    (n col : Nat) (DA : List Nat) (hcol : 1 ≤ col) (hn : col + n = H.length + 1)
    (hlen : DA.length = H.length + 1)
    (hinv : ∀ k, k < col → DA[k]? = some (diagonalOf H k)) :
    ∃ DA1, diagLoop H n col DA = .ok DA1 ∧ DA1.length = H.length + 1 ∧
      ∀ k, k ≤ H.length → DA1[k]? = some (diagonalOf H k) := by
  induction n generalizing col DA with
  | zero =>
    exact ⟨DA, rfl, hlen, fun k hk => hinv k (by omega)⟩
  | succ n ih =>
    have hc : col - 1 < H.length := by omega
    have hH : H[col - 1]? = some H[col - 1] := List.getElem?_eq_getElem hc
    have hsucc := diagonalOf_succ H (col - 1) _ hH
    have hcc : col - 1 + 1 = col := by omega
    rw [hcc] at hsucc
    have hbound := diagonalOf_le H col H.length (by omega)
    have hval : uadd (uadd (diagonalOf H (col - 1)) H[col - 1]) 1 = diagonalOf H col := by
      unfold uadd
      have h1 : (diagonalOf H (col - 1) + H[col - 1]) % UINT_SIZE =
          diagonalOf H (col - 1) + H[col - 1] := Nat.mod_eq_of_lt (by omega)
      rw [h1, Nat.mod_eq_of_lt (by omega)]
      omega
    have hstep : diagLoop H (n + 1) col DA =
        diagLoop H n (col + 1) (DA.set col (diagonalOf H col)) := by
      rw [diagLoop, readAt_ok _ DA (col - 1) _ (hinv (col - 1) (by omega)),
        readAt_ok _ H (col - 1) _ hH]
      simp only [hval]
      rw [writeAt_ok _ DA col _ (by omega)]
    rw [hstep]
    apply ih (col + 1) (DA.set col (diagonalOf H col)) (by omega) (by omega)
      (by rw [List.length_set]; exact hlen)
    intro k hk
    by_cases hkc : k = col
    · subst hkc
      exact List.getElem?_set_self (by omega)
    · rw [List.getElem?_set_ne (by omega)]
      exact hinv k (by omega)

theorem CalculateDiagnoalAddress_spec (NEQ : Nat) (H DA0 : List Nat)
    (hH : H.length = NEQ) (hDA : DA0.length = NEQ + 1)
    (hfit : NEQ + H.sum + 1 < UINT_SIZE) :
    ∃ DA, CalculateDiagnoalAddress NEQ H DA0 = .ok (DA, NEQ + H.sum) ∧
      DA.length = NEQ + 1 ∧ ∀ k, k ≤ NEQ → DA[k]? = some (diagonalOf H k) := by
  subst hH
  have hfit1 : diagonalOf H H.length < UINT_SIZE := by
    rw [diagonalOf_length]
    omega
  obtain ⟨DA, hloop, hlen, hall⟩ :=
    diagLoop_spec H hfit1 H.length 1 (DA0.set 0 1) (Nat.le_refl 1) (by omega)
      (by rw [List.length_set]; exact hDA)
      (by
        intro k hk
        have : k = 0 := by omega
        subst this
        rw [diagonalOf_zero]
        exact List.getElem?_set_self (by omega))
  refine ⟨DA, ?_, hlen, hall⟩
  unfold CalculateDiagnoalAddress
  rw [writeAt_ok _ DA0 0 1 (by omega)]
  simp only [hloop]
  rw [readAt_ok _ DA H.length _ (hall H.length (Nat.le_refl _)),
    readAt_ok _ DA 0 _ (hall 0 (Nat.zero_le _))]
  simp only [diagonalOf_zero, diagonalOf_length]
  have : usub (1 + H.length + H.sum) 1 = H.length + H.sum := by
    unfold usub
    have h1 : (1 : Nat) % UINT_SIZE = 1 := by decide
    have h0 : (1 + H.length + H.sum) % UINT_SIZE = 1 + H.length + H.sum :=
      Nat.mod_eq_of_lt (by omega)
    have h2 : 1 + H.length + H.sum + UINT_SIZE - 1 = H.length + H.sum + UINT_SIZE := by omega
    rw [h1, h0, h2, Nat.add_mod_right, Nat.mod_eq_of_lt (by omega)]
  rw [this]

/-! ## Lemmas on the column heights -/

theorem minNonzero_none (lm : List Nat) :
    minNonzero lm = none ↔ ∀ e, e ∈ lm → e = 0 := by
  induction lm with
  | nil => simp [minNonzero]
  | cons a as ih =>
    cases h : minNonzero as with
    | none =>
      have h0 := ih.mp h
      by_cases ha : a = 0
      · simp only [minNonzero, h, ha, if_true, true_iff]
        intro e he
        rcases List.mem_cons.mp he with h1 | h1
        · exact h1
        · exact h0 e h1
      · simp only [minNonzero, h, ha, if_false]
        constructor
        · intro hn
          cases hn
        · intro hall
          exact absurd (hall a (List.mem_cons_self a as)) ha
    | some m =>
      have hne : ¬ ∀ e, e ∈ as → e = 0 := fun hall => by
        rw [ih.mpr hall] at h
        cases h
      have hleft : minNonzero (a :: as) ≠ none := by
        simp only [minNonzero, h]
        split <;> simp
      constructor
      · intro hn
        exact absurd hn hleft
      · intro hall
        exact absurd (fun e he => hall e (List.mem_cons_of_mem a he)) hne

theorem minNonzero_some (lm : List Nat) (m : Nat) (h : minNonzero lm = some m) :
    m ∈ lm ∧ m ≠ 0 ∧ ∀ e, e ∈ lm → e ≠ 0 → m ≤ e := by
  induction lm generalizing m with
  | nil => simp [minNonzero] at h
  | cons a as ih =>
    cases hm : minNonzero as with
    | none =>
      have h0 := (minNonzero_none as).mp hm
      simp only [minNonzero, hm] at h
      by_cases ha : a = 0
      · simp [ha] at h
      · simp only [ha, if_false, Option.some.injEq] at h
        subst h
        refine ⟨List.mem_cons_self _ _, ha, ?_⟩
        intro e he hne
        rcases List.mem_cons.mp he with h1 | h1
        · omega
        · exact absurd (h0 e h1) hne
    | some m1 =>
      obtain ⟨hmem, hnz, hmin⟩ := ih m1 hm
      simp only [minNonzero, hm] at h
      by_cases hc : a ≠ 0 ∧ a < m1
      · rw [if_pos hc] at h
        have h := Option.some.inj h
        subst h
        refine ⟨List.mem_cons_self _ _, hc.1, ?_⟩
        intro e he hne
        rcases List.mem_cons.mp he with h1 | h1
        · omega
        · have := hmin e h1 hne
          omega
      · rw [if_neg hc] at h
        have h := Option.some.inj h
        subst h
        refine ⟨List.mem_cons_of_mem _ hmem, hnz, ?_⟩
        intro e he hne
        rcases List.mem_cons.mp he with h1 | h1
        · subst h1
          by_contra hlt
          exact hc ⟨hne, by omega⟩
        · exact hmin e h1 hne

theorem updateHeights_spec (m : Nat) (lm H : List Nat)
    (hrange : ∀ e, e ∈ lm → e ≤ H.length) :
    ∃ H1, updateHeights m lm H = .ok H1 ∧ H1.length = H.length ∧
      ∀ k, H1[k]? = (H[k]?).map (fun h => max h (if k + 1 ∈ lm then k + 1 - m else 0)) := by
  induction lm generalizing H with
  | nil =>
    refine ⟨H, rfl, rfl, ?_⟩
    intro k
    cases H[k]? <;> simp
  | cons e es ih =>
    by_cases hme : m < e
    · have he : e ≤ H.length := hrange e (List.mem_cons_self _ _)
      have hlt : e - 1 < H.length := by omega
      have hrd : H[e - 1]? = some H[e - 1] := List.getElem?_eq_getElem hlt
      obtain ⟨H1, hH1, hlen1, hget1⟩ := ih (H.set (e - 1) (max H[e - 1] (e - m)))
        (by
          intro x hx
          rw [List.length_set]
          exact hrange x (List.mem_cons_of_mem _ hx))
      refine ⟨H1, ?_, ?_, ?_⟩
      · rw [updateHeights, if_pos hme, readAt_ok _ H (e - 1) _ hrd]
        simp only []
        rw [writeAt_ok _ H (e - 1) _ hlt]
        exact hH1
      · rw [hlen1, List.length_set]
      · intro k
        rw [hget1 k]
        by_cases hk : k = e - 1
        · subst hk
          have hee : e - 1 + 1 = e := by omega
          rw [List.getElem?_set_self hlt, hrd]
          simp only [Option.map_some', hee, List.mem_cons, true_or, if_true]
          congr 1
          by_cases hin : e ∈ es
          · simp [hin]
          · simp [hin]
        · rw [List.getElem?_set_ne (by omega)]
          have hne : k + 1 ≠ e := by omega
          simp only [List.mem_cons, hne, false_or]
    · obtain ⟨H1, hH1, hlen1, hget1⟩ := ih H
        (fun x hx => hrange x (List.mem_cons_of_mem _ hx))
      refine ⟨H1, ?_, hlen1, ?_⟩
      · rw [updateHeights, if_neg hme]
        exact hH1
      · intro k
        rw [hget1 k]
        by_cases hk : k + 1 = e
        · have h0 : k + 1 - m = 0 := by omega
          simp only [List.mem_cons, hk, true_or, if_true]
          rw [← hk, h0]
          cases H[k]? with
          | none => rfl
          | some h => simp
        · simp only [List.mem_cons, hk, false_or]

theorem CalculateColumnHeight_spec (el : CElement) (H : List Nat)
    (hrange : ∀ e, e ∈ el.LocationMatrix → e ≤ H.length) :
    ∃ H1, CalculateColumnHeight el H = .ok H1 ∧ H1.length = H.length ∧
      ∀ k, H1[k]? = (H[k]?).map (fun h => max h (elementHeight el (k + 1))) := by
  unfold CalculateColumnHeight elementHeight
  cases hm : minNonzero el.LocationMatrix with
  | none =>
    refine ⟨H, rfl, rfl, ?_⟩
    intro k
    cases H[k]? <;> simp
  | some m => exact updateHeights_spec m el.LocationMatrix H hrange

theorem elementLoop_spec (els : List CElement) (H : List Nat)
    (hrange : ∀ el, el ∈ els → ∀ e, e ∈ el.LocationMatrix → e ≤ H.length) :
    ∃ H1, elementLoop els H = .ok H1 ∧ H1.length = H.length ∧
      ∀ k, H1[k]? = (H[k]?).map (fun h => max h (expectedHeight els (k + 1))) := by
  induction els generalizing H with
  | nil =>
    refine ⟨H, rfl, rfl, ?_⟩
    intro k
    cases H[k]? <;> simp [expectedHeight]
  | cons el els ih =>
    obtain ⟨H1, h1, hlen1, hget1⟩ :=
      CalculateColumnHeight_spec el H (hrange el (List.mem_cons_self _ _))
    obtain ⟨H2, h2, hlen2, hget2⟩ := ih H1 (by
      intro x hx e he
      rw [hlen1]
      exact hrange x (List.mem_cons_of_mem _ hx) e he)
    refine ⟨H2, ?_, by rw [hlen2, hlen1], ?_⟩
    · rw [elementLoop, h1]
      exact h2
    · intro k
      rw [hget2 k, hget1 k]
      cases H[k]? with
      | none => rfl
      | some h => simp [expectedHeight, max_assoc]

theorem expectedHeight_append (l1 l2 : List CElement) (e : Nat) :
    expectedHeight (l1 ++ l2) e = max (expectedHeight l1 e) (expectedHeight l2 e) := by
  induction l1 with
  | nil => simp [expectedHeight]
  | cons el els ih => simp [expectedHeight, ih, max_assoc]

theorem groupLoop_spec (gs : List (List CElement)) (H : List Nat)
    (hrange : ∀ g, g ∈ gs → ∀ el, el ∈ g → ∀ e, e ∈ el.LocationMatrix → e ≤ H.length) :
    ∃ H1, groupLoop gs H = .ok H1 ∧ H1.length = H.length ∧
      ∀ k, H1[k]? = (H[k]?).map (fun h => max h (expectedHeight gs.flatten (k + 1))) := by
  induction gs generalizing H with
  | nil =>
    refine ⟨H, rfl, rfl, ?_⟩
    intro k
    cases H[k]? <;> simp [expectedHeight]
  | cons g gs ih =>
    obtain ⟨H1, h1, hlen1, hget1⟩ := elementLoop_spec g H (hrange g (List.mem_cons_self _ _))
    obtain ⟨H2, h2, hlen2, hget2⟩ := ih H1 (by
      intro x hx el hel e he
      rw [hlen1]
      exact hrange x (List.mem_cons_of_mem _ hx) el hel e he)
    refine ⟨H2, ?_, by rw [hlen2, hlen1], ?_⟩
    · rw [groupLoop, h1]
      exact h2
    · intro k
      rw [hget2 k, hget1 k, List.flatten_cons, expectedHeight_append]
      cases H[k]? with
      | none => rfl
      | some h => simp [max_assoc]

theorem expectedHeight_perm (l1 l2 : List CElement) (hp : List.Perm l1 l2) (e : Nat) :
    expectedHeight l1 e = expectedHeight l2 e := by
  induction hp with
  | nil => rfl
  | cons x _ ih => simp [expectedHeight, ih]
  | swap x y l => simp [expectedHeight, max_left_comm]
  | trans _ _ ih1 ih2 => rw [ih1, ih2]

theorem maxLoop_ok (H : List Nat) (n i MK : Nat) (h : i + n ≤ H.length) :
    ∃ MK1, maxLoop H n i MK = .ok MK1 := by
  induction n generalizing i MK with
  | zero => exact ⟨MK, rfl⟩
  | succ n ih =>
    have hi : H[i]? = some H[i] := List.getElem?_eq_getElem (by omega)
    rw [maxLoop, readAt_ok _ H i _ hi]
    exact ih (i + 1) _ (by omega)

/-! ## Lemmas on the force assembly -/

theorem usub_one (x : Nat) (h1 : 1 ≤ x) (h2 : x < UINT_SIZE) : usub x 1 = x - 1 := by
  unfold usub
  have h3 : (1 : Nat) % UINT_SIZE = 1 := by decide
  have h4 : x + UINT_SIZE - 1 = x - 1 + UINT_SIZE := by omega
  rw [Nat.mod_eq_of_lt h2, h3, h4, Nat.add_mod_right, Nat.mod_eq_of_lt (by omega)]

theorem usub_zero_one : usub 0 1 = 4294967295 := by decide

theorem clearLoop_spec {R : Type} [AddMonoid R]
    (arr : Mem) (n i : Nat) (a : List R) (h : i + n ≤ a.length) :
    ∃ a1, clearLoop arr n i a = .ok a1 ∧ a1.length = a.length ∧
      ∀ k, a1[k]? = if i ≤ k ∧ k < i + n then some 0 else a[k]? := by
  induction n generalizing i a with
  | zero =>
    refine ⟨a, rfl, rfl, ?_⟩
    intro k
    have : ¬ (i ≤ k ∧ k < i + 0) := by omega
    rw [if_neg this]
  | succ n ih =>
    obtain ⟨a1, h1, hlen, hget⟩ := ih (i + 1) (a.set i 0) (by rw [List.length_set]; omega)
    refine ⟨a1, ?_, by rw [hlen, List.length_set], ?_⟩
    · rw [clearLoop, writeAt_ok _ a i 0 (by omega)]
      exact h1
    · intro k
      rw [hget k]
      by_cases hk : k = i
      · subst hk
        have h2 : ¬ (k + 1 ≤ k ∧ k < k + 1 + n) := by omega
        have h3 : k ≤ k ∧ k < k + (n + 1) := by omega
        rw [if_neg h2, if_pos h3]
        exact List.getElem?_set_self (by omega)
      · rw [List.getElem?_set_ne (by omega)]
        by_cases hr : i + 1 ≤ k ∧ k < i + 1 + n
        · have h3 : i ≤ k ∧ k < i + (n + 1) := by omega
          rw [if_pos hr, if_pos h3]
        · have h3 : ¬ (i ≤ k ∧ k < i + (n + 1)) := by omega
          rw [if_neg hr, if_neg h3]

theorem clear_spec {R : Type} [AddMonoid R] (arr : Mem) (a : List R) (N : Nat) (h : a.length = N) :
    clear arr a N = .ok (List.replicate N 0) := by
  obtain ⟨a1, h1, hlen, hget⟩ := clearLoop_spec arr N 0 a (by omega)
  unfold clear
  rw [h1]
  congr 1
  apply List.ext_getElem?
  intro k
  rw [hget k, List.getElem?_replicate]
  by_cases hk : k < N
  · have : 0 ≤ k ∧ k < 0 + N := by omega
    rw [if_pos this, if_pos hk]
  · have : ¬ (0 ≤ k ∧ k < 0 + N) := by omega
    rw [if_neg this, if_neg hk]
    exact List.getElem?_eq_none (by omega)

theorem loadSumRange_zero {R : Type} [AddMonoid R]
    (NodeList : List CNode) (LoadData : CLoadCaseData R) (e lnum : Nat) :
    loadSumRange NodeList LoadData e lnum 0 = 0 := by
  simp [loadSumRange]

theorem loadSumRange_succ {R : Type} [AddMonoid R]
    (NodeList : List CNode) (LoadData : CLoadCaseData R)
    (e lnum n : Nat) :
    loadSumRange NodeList LoadData e lnum (n + 1) =
      (if equationOfLoad NodeList LoadData lnum = some e then LoadData.load.getD lnum 0 else 0)
        + loadSumRange NodeList LoadData e (lnum + 1) n := by
  unfold loadSumRange
  rw [List.range'_succ, List.filter_cons]
  by_cases h : equationOfLoad NodeList LoadData lnum = some e
  · simp [h]
  · simp [h]

theorem forceLoop_step {R : Type} [AddMonoid R]
    (NodeList : List CNode) (LoadData : CLoadCaseData R) (NEQ n lnum : Nat)
    (Force : List R) (hF : Force.length = NEQ)
    (nd d eq : Nat) (mag : R) (hnd : LoadData.node[lnum]? = some nd)
    (hd : LoadData.dof[lnum]? = some d) (hmag : LoadData.load[lnum]? = some mag)
    (hnd1 : 1 ≤ nd) (hnd2 : nd < UINT_SIZE) (hd1 : 1 ≤ d) (hd2 : d < UINT_SIZE)
    (hb : bcodeAt NodeList (nd - 1) (d - 1) = some eq) (he1 : 1 ≤ eq) (he2 : eq ≤ NEQ)
    (hNEQ : NEQ < UINT_SIZE) :
    ∃ old, Force[eq - 1]? = some old ∧
      forceLoop NodeList LoadData (n + 1) lnum Force =
        forceLoop NodeList LoadData n (lnum + 1) (Force.set (eq - 1) (old + mag)) := by
  have hlt : eq - 1 < Force.length := by omega
  refine ⟨Force[eq - 1], List.getElem?_eq_getElem hlt, ?_⟩
  unfold bcodeAt at hb
  cases hnode : NodeList[nd - 1]? with
  | none => simp [hnode] at hb
  | some cnode =>
    simp only [hnode] at hb
    rw [forceLoop, readAt_ok _ _ lnum nd hnd]
    simp only []
    rw [usub_one nd hnd1 hnd2, readAt_ok _ _ (nd - 1) cnode hnode]
    simp only []
    rw [readAt_ok _ _ lnum d hd]
    simp only []
    rw [usub_one d hd1 hd2, readAt_ok _ _ (d - 1) eq hb]
    simp only []
    rw [readAt_ok _ _ lnum mag hmag]
    simp only []
    rw [usub_one eq he1 (by omega), readAt_ok _ Force (eq - 1) _ (List.getElem?_eq_getElem hlt)]
    simp only []
    rw [writeAt_ok _ Force (eq - 1) _ hlt]

theorem equationOfLoad_eq {R : Type}
    (NodeList : List CNode) (LoadData : CLoadCaseData R) (l nd d : Nat)
    (hnd : LoadData.node[l]? = some nd) (hd : LoadData.dof[l]? = some d) :
    equationOfLoad NodeList LoadData l = bcodeAt NodeList (nd - 1) (d - 1) := by
  simp [equationOfLoad, hnd, hd]

theorem forceLoop_spec {R : Type} [AddMonoid R]
    (NodeList : List CNode) (LoadData : CLoadCaseData R) (NEQ : Nat)
    (hNEQ : NEQ < UINT_SIZE) (n lnum : Nat) (Force : List R) (hF : Force.length = NEQ)
    (hvalid : ∀ l, lnum ≤ l → l < lnum + n → validLoad NodeList NEQ LoadData l) :
    ∃ F, forceLoop NodeList LoadData n lnum Force = .ok F ∧ F.length = NEQ ∧
      ∀ k, F[k]? = (Force[k]?).map
        (fun x => x + loadSumRange NodeList LoadData (k + 1) lnum n) := by
  induction n generalizing lnum Force with
  | zero =>
    refine ⟨Force, rfl, hF, ?_⟩
    intro k
    cases Force[k]? <;> simp [loadSumRange_zero]
  | succ n ih =>
    obtain ⟨nd, d, mag, eq, hnd, hd, hmag, hnd1, hnd2, hd1, hd2, hb, he1, he2⟩ :=
      hvalid lnum (Nat.le_refl _) (by omega)
    obtain ⟨old, hold, hstep⟩ := forceLoop_step NodeList LoadData NEQ n lnum Force hF
      nd d eq mag hnd hd hmag hnd1 hnd2 hd1 hd2 hb he1 he2 hNEQ
    obtain ⟨F, hFok, hFlen, hFget⟩ := ih (lnum + 1) (Force.set (eq - 1) (old + mag))
      (by rw [List.length_set]; exact hF)
      (fun l h1 h2 => hvalid l (by omega) (by omega))
    refine ⟨F, by rw [hstep]; exact hFok, hFlen, ?_⟩
    intro k
    rw [hFget k, loadSumRange_succ, equationOfLoad_eq NodeList LoadData lnum nd d hnd hd, hb]
    have hmagD : LoadData.load.getD lnum 0 = mag := by simp [List.getD, hmag]
    rw [hmagD]
    by_cases hk : k = eq - 1
    · subst hk
      have hee : eq - 1 + 1 = eq := by omega
      rw [List.getElem?_set_self (by omega), hold, hee]
      simp [add_assoc]
    · rw [List.getElem?_set_ne (by omega)]
      have hne : ¬ (some eq = some (k + 1)) := by
        intro h
        have := Option.some.inj h
        omega
      rw [if_neg hne]
      cases Force[k]? with
      | none => rfl
      | some x => simp

theorem forceLoop_fault {R : Type} [AddMonoid R]
    (NodeList : List CNode) (LoadData : CLoadCaseData R) (NEQ : Nat)
    (hNEQ : NEQ < UINT_SIZE) (j n lnum : Nat) (Force : List R) (hF : Force.length = NEQ)
    (hj1 : lnum ≤ j) (hj2 : j < lnum + n)
    (hvalid : ∀ l, lnum ≤ l → l < j → validLoad NodeList NEQ LoadData l)
    (hcon : constrainedLoad NodeList LoadData j) :
    forceLoop NodeList LoadData n lnum Force = .error (.outOfBounds .Force 4294967295) := by
  induction n generalizing lnum Force with
  | zero => omega
  | succ n ih =>
    by_cases hlj : lnum = j
    · subst hlj
      obtain ⟨nd, d, mag, hnd, hd, hmag, hnd1, hnd2, hd1, hd2, hb⟩ := hcon
      unfold bcodeAt at hb
      cases hnode : NodeList[nd - 1]? with
      | none => simp [hnode] at hb
      | some cnode =>
        simp only [hnode] at hb
        rw [forceLoop, readAt_ok _ _ lnum nd hnd]
        simp only []
        rw [usub_one nd hnd1 hnd2, readAt_ok _ _ (nd - 1) cnode hnode]
        simp only []
        rw [readAt_ok _ _ lnum d hd]
        simp only []
        rw [usub_one d hd1 hd2, readAt_ok _ _ (d - 1) 0 hb]
        simp only []
        rw [readAt_ok _ _ lnum mag hmag]
        simp only []
        rw [usub_zero_one, readAt_fault _ Force 4294967295 (by
          rw [hF]
          have : UINT_SIZE = 4294967296 := by decide
          omega)]
    · obtain ⟨nd, d, mag, eq, hnd, hd, hmag, hnd1, hnd2, hd1, hd2, hb, he1, he2⟩ :=
        hvalid lnum (Nat.le_refl _) (by omega)
      obtain ⟨old, _, hstep⟩ := forceLoop_step NodeList LoadData NEQ n lnum Force hF
        nd d eq mag hnd hd hmag hnd1 hnd2 hd1 hd2 hb he1 he2 hNEQ
      rw [hstep]
      exact ih (lnum + 1) (Force.set (eq - 1) (old + mag))
        (by rw [List.length_set]; exact hF) (by omega) (by omega)
        (fun l h1 h2 => hvalid l (by omega) h2)

/-! ## Equation numbering: the claims -/

theorem sampleNodes_numbered : CalculateEquationNumber sampleNodes = (4, numberedNodes) := by
  decide

/-- C1: for every node list whose number of free degrees of freedom fits in
`unsigned int`, after `CalculateEquationNumber` the node list has the same
shape, every degree of freedom that was flagged constrained holds 0, the
values held by the degrees of freedom that were free are pairwise distinct,
the set of those values is exactly `{1, ..., NEQ}`, and `NEQ` is the number of
free degrees of freedom. -/
theorem CalculateEquationNumber_numbering (NodeList : List CNode)
    (hfit : freeTotal NodeList < UINT_SIZE) :
    (∀ np dof, (bcodeAt (CalculateEquationNumber NodeList).2 np dof).isSome =
        (bcodeAt NodeList np dof).isSome) ∧
    (∀ np dof b, bcodeAt NodeList np dof = some b → b ≠ 0 →
        bcodeAt (CalculateEquationNumber NodeList).2 np dof = some 0) ∧
    (∀ np1 dof1 np2 dof2 e,
        bcodeAt NodeList np1 dof1 = some 0 → bcodeAt NodeList np2 dof2 = some 0 →
        bcodeAt (CalculateEquationNumber NodeList).2 np1 dof1 = some e →
        bcodeAt (CalculateEquationNumber NodeList).2 np2 dof2 = some e →
        np1 = np2 ∧ dof1 = dof2) ∧
    (∀ e, (1 ≤ e ∧ e ≤ (CalculateEquationNumber NodeList).1) ↔
        ∃ np dof, bcodeAt NodeList np dof = some 0 ∧
          bcodeAt (CalculateEquationNumber NodeList).2 np dof = some e) ∧
    (CalculateEquationNumber NodeList).1 = freeTotal NodeList := by
  have hfit0 : 0 + freeTotal NodeList < UINT_SIZE := by omega
  have hneq : (CalculateEquationNumber NodeList).1 = freeTotal NodeList := by
    unfold CalculateEquationNumber
    rw [numberNodes_fst 0 NodeList hfit0]
    omega
  have hfree : ∀ np dof, bcodeAt NodeList np dof = some 0 →
      bcodeAt (CalculateEquationNumber NodeList).2 np dof =
        some (freeRank NodeList np dof) := by
    intro np dof h
    unfold CalculateEquationNumber
    rw [numberNodes_bcodeAt 0 NodeList hfit0 np dof 0 h]
    simp
  refine ⟨?_, ?_, ?_, ?_, hneq⟩
  · intro np dof
    unfold CalculateEquationNumber
    cases hb : bcodeAt NodeList np dof with
    | none => rw [numberNodes_bcodeAt_none 0 NodeList np dof hb]
    | some b => rw [numberNodes_bcodeAt 0 NodeList hfit0 np dof b hb]; rfl
  · intro np dof b hb hne
    unfold CalculateEquationNumber
    rw [numberNodes_bcodeAt 0 NodeList hfit0 np dof b hb]
    simp [hne]
  · intro np1 dof1 np2 dof2 e h1 h2 o1 o2
    rw [hfree np1 dof1 h1] at o1
    rw [hfree np2 dof2 h2] at o2
    have e1 : freeRank NodeList np1 dof1 = e := Option.some.inj o1
    have e2 : freeRank NodeList np2 dof2 = e := Option.some.inj o2
    by_contra hne
    have hlex : (np1 < np2 ∨ (np1 = np2 ∧ dof1 < dof2)) ∨
        (np2 < np1 ∨ (np2 = np1 ∧ dof2 < dof1)) := by omega
    rcases hlex with hl | hl
    · have := freeRank_lt NodeList np1 dof1 np2 dof2 hl h2
      omega
    · have := freeRank_lt NodeList np2 dof2 np1 dof1 hl h1
      omega
  · intro e
    rw [hneq]
    constructor
    · rintro ⟨h1, h2⟩
      obtain ⟨np, dof, hb, hr⟩ := freeRank_surj NodeList e h1 h2
      exact ⟨np, dof, hb, by rw [hfree np dof hb, hr]⟩
    · rintro ⟨np, dof, hb, ho⟩
      rw [hfree np dof hb] at ho
      have he : freeRank NodeList np dof = e := Option.some.inj ho
      have h1 := freeRank_pos NodeList np dof hb
      have h2 := freeRank_le NodeList np dof
      omega

/-- Witness of C1 on `sampleNodes`: four free degrees of freedom, numbered
1 to 4. -/
theorem CalculateEquationNumber_numbering_witness :
    freeTotal sampleNodes < UINT_SIZE ∧
    (CalculateEquationNumber sampleNodes).1 = 4 ∧
    (∀ e, (1 ≤ e ∧ e ≤ (CalculateEquationNumber sampleNodes).1) ↔
        ∃ np dof, bcodeAt sampleNodes np dof = some 0 ∧
          bcodeAt (CalculateEquationNumber sampleNodes).2 np dof = some e) :=
  ⟨by decide, by decide,
    (CalculateEquationNumber_numbering sampleNodes (by decide)).2.2.2.1⟩

/-- C2: `CalculateEquationNumber` numbers the free degrees of freedom in
node-major, DOF-minor order: of two free degrees of freedom the one that
comes first in the lexicographic order of `(np, dof)` gets the strictly
smaller equation number, and every free degree of freedom gets its position
`freeRank` among the free ones (the k-th free one gets k). -/
theorem CalculateEquationNumber_order (NodeList : List CNode)
    (hfit : freeTotal NodeList < UINT_SIZE) :
    (∀ np1 dof1 np2 dof2, (np1 < np2 ∨ (np1 = np2 ∧ dof1 < dof2)) →
        bcodeAt NodeList np1 dof1 = some 0 → bcodeAt NodeList np2 dof2 = some 0 →
        ∃ e1 e2, bcodeAt (CalculateEquationNumber NodeList).2 np1 dof1 = some e1 ∧
          bcodeAt (CalculateEquationNumber NodeList).2 np2 dof2 = some e2 ∧ e1 < e2) ∧
    (∀ np dof, bcodeAt NodeList np dof = some 0 →
        bcodeAt (CalculateEquationNumber NodeList).2 np dof =
          some (freeRank NodeList np dof)) := by
  have hfit0 : 0 + freeTotal NodeList < UINT_SIZE := by omega
  have hfree : ∀ np dof, bcodeAt NodeList np dof = some 0 →
      bcodeAt (CalculateEquationNumber NodeList).2 np dof =
        some (freeRank NodeList np dof) := by
    intro np dof h
    unfold CalculateEquationNumber
    rw [numberNodes_bcodeAt 0 NodeList hfit0 np dof 0 h]
    simp
  refine ⟨?_, hfree⟩
  intro np1 dof1 np2 dof2 hlex h1 h2
  exact ⟨_, _, hfree np1 dof1 h1, hfree np2 dof2 h2,
    freeRank_lt NodeList np1 dof1 np2 dof2 hlex h2⟩

/-- Witness of C2 on `sampleNodes`: the free degree of freedom `(1, 2)` is the
fourth free one and gets equation number 4. -/
theorem CalculateEquationNumber_order_witness :
    freeTotal sampleNodes < UINT_SIZE ∧
    bcodeAt (CalculateEquationNumber sampleNodes).2 1 2 = some 4 :=
  ⟨by decide,
    (CalculateEquationNumber_order sampleNodes (by decide)).2 1 2 (by decide)⟩

/-! ## Skyline layout: the claims on the diagonal addresses -/

/-- C4: for every `NEQ`, every column-height array `H` of length `NEQ` and
every initial content of `DiagonalAddress` (length `NEQ + 1`), when the sums
do not overflow `unsigned int`, `CalculateDiagnoalAddress` returns with
`DiagonalAddress[0] = 1` and
`DiagonalAddress[k+1] = DiagonalAddress[k] + H[k] + 1` for every `k < NEQ`,
so that `DiagonalAddress` is strictly increasing. -/
theorem CalculateDiagnoalAddress_recurrence (NEQ : Nat) (H DA0 : List Nat)
    (hH : H.length = NEQ) (hDA : DA0.length = NEQ + 1)
    (hfit : NEQ + H.sum + 1 < UINT_SIZE) :
    ∃ DA NWK, CalculateDiagnoalAddress NEQ H DA0 = .ok (DA, NWK) ∧
      DA.length = NEQ + 1 ∧ DA[0]? = some 1 ∧
      (∀ k, k < NEQ → ∃ a h, DA[k]? = some a ∧ H[k]? = some h ∧
        DA[k + 1]? = some (a + h + 1)) ∧
      (∀ i j, i < j → j ≤ NEQ → ∃ a b, DA[i]? = some a ∧ DA[j]? = some b ∧ a < b) := by
  obtain ⟨DA, hc, hlen, hall⟩ := CalculateDiagnoalAddress_spec NEQ H DA0 hH hDA hfit
  refine ⟨DA, NEQ + H.sum, hc, hlen, ?_, ?_, ?_⟩
  · rw [hall 0 (Nat.zero_le _), diagonalOf_zero]
  · intro k hk
    have hk1 : H[k]? = some H[k] := List.getElem?_eq_getElem (by omega)
    refine ⟨diagonalOf H k, H[k], hall k (by omega), hk1, ?_⟩
    rw [hall (k + 1) (by omega), diagonalOf_succ H k _ hk1]
  · intro i j hij hj
    exact ⟨_, _, hall i (by omega), hall j hj, diagonalOf_lt H i j hij⟩

/-- Witness of C4: column heights `[0, 1, 2]`. -/
theorem CalculateDiagnoalAddress_recurrence_witness :
    ∃ DA NWK, CalculateDiagnoalAddress 3 [0, 1, 2] [7, 7, 7, 7] = .ok (DA, NWK) ∧
      DA.length = 3 + 1 ∧ DA[0]? = some 1 ∧
      (∀ k, k < 3 → ∃ a h, DA[k]? = some a ∧ [0, 1, 2][k]? = some h ∧
        DA[k + 1]? = some (a + h + 1)) ∧
      (∀ i j, i < j → j ≤ 3 → ∃ a b, DA[i]? = some a ∧ DA[j]? = some b ∧ a < b) :=
  CalculateDiagnoalAddress_recurrence 3 [0, 1, 2] [7, 7, 7, 7] (by decide) (by decide)
    (by decide)

/-- C5: for every `NEQ` and every column-height array `H` of length `NEQ`,
when the sums do not overflow `unsigned int`, `CalculateDiagnoalAddress` sets
`NWK = DiagonalAddress[NEQ] - 1 = NEQ + (H[0] + ... + H[NEQ-1])`; in
particular `NWK = 0` when `NEQ = 0`. -/
theorem CalculateDiagnoalAddress_NWK (NEQ : Nat) (H DA0 : List Nat)
    (hH : H.length = NEQ) (hDA : DA0.length = NEQ + 1)
    (hfit : NEQ + H.sum + 1 < UINT_SIZE) :
    ∃ DA NWK last, CalculateDiagnoalAddress NEQ H DA0 = .ok (DA, NWK) ∧
      DA[NEQ]? = some last ∧ NWK = last - 1 ∧ NWK = NEQ + H.sum ∧
      (NEQ = 0 → NWK = 0) := by
  obtain ⟨DA, hc, _, hall⟩ := CalculateDiagnoalAddress_spec NEQ H DA0 hH hDA hfit
  refine ⟨DA, NEQ + H.sum, diagonalOf H NEQ, hc, hall NEQ (Nat.le_refl _), ?_, rfl, ?_⟩
  · subst hH
    rw [diagonalOf_length]
    omega
  · intro h0
    subst h0
    have : H = [] := List.length_eq_zero.mp hH
    subst this
    rfl

/-- Witness of C5: the empty model, `NEQ = 0`, gives `NWK = 0`. -/
theorem CalculateDiagnoalAddress_NWK_witness :
    ∃ DA NWK last, CalculateDiagnoalAddress 0 [] [7] = .ok (DA, NWK) ∧
      DA[0]? = some last ∧ NWK = last - 1 ∧ NWK = 0 + ([] : List Nat).sum ∧
      (0 = 0 → NWK = 0) :=
  CalculateDiagnoalAddress_NWK 0 [] [7] (by decide) (by decide) (by decide)

/-- C6, as stated, fails. (a) For the column heights `[0, 1]` the addresses
are `[1, 2, 4]` and the two in-skyline pairs `(0, 0)` and `(1, 0)` get the same
offset 1. (b) When the sums overflow, as for the column heights
`[2 ^ 32 - 2, 0]`, the diagonal entry `(1, 1)` gets the offset 0, outside
`1 .. NWK`. -/
theorem offset_counterexample :
    (CalculateDiagnoalAddress 2 [0, 1] [0, 0, 0] = .ok ([1, 2, 4], 3) ∧
      inSkyline [0, 1] 0 0 ∧ inSkyline [0, 1] 1 0 ∧
      offset [1, 2, 4] 0 0 = some 1 ∧ offset [1, 2, 4] 1 0 = some 1) ∧
    (CalculateDiagnoalAddress 2 [4294967294, 0] [0, 0, 0] = .ok ([1, 0, 1], 0) ∧
      inSkyline [4294967294, 0] 1 1 ∧ offset [1, 0, 1] 1 1 = some 0) := by
  decide

/-- C6, amended: with `DiagonalAddress` and `NWK` as computed by
`CalculateDiagnoalAddress` from column heights `H` of length `NEQ` whose sums
do not overflow, the offset `DiagonalAddress[r] - (r - c)` of every
in-skyline pair lies in `1 .. NWK`, is `DiagonalAddress[i]` on the diagonal,
and is distinct for distinct pairs of one column `r` and for distinct
diagonal entries. The position `DiagonalAddress[r] + (r - c)` lies in
`1 .. NWK` and is distinct for all distinct in-skyline pairs. -/
theorem offset_in_buffer (NEQ : Nat) (H DA0 : List Nat)
    (hH : H.length = NEQ) (hDA : DA0.length = NEQ + 1)
    (hfit : NEQ + H.sum + 1 < UINT_SIZE) :
    ∃ DA NWK, CalculateDiagnoalAddress NEQ H DA0 = .ok (DA, NWK) ∧
      (∀ r c, inSkyline H r c → ∃ p, offset DA r c = some p ∧ 1 ≤ p ∧ p ≤ NWK) ∧
      (∀ i, i < NEQ → offset DA i i = DA[i]?) ∧
      (∀ r c c1, inSkyline H r c → inSkyline H r c1 →
        offset DA r c = offset DA r c1 → c = c1) ∧
      (∀ i j, i < NEQ → j < NEQ → offset DA i i = offset DA j j → i = j) ∧
      (∀ r c, inSkyline H r c → ∃ p, offsetUp DA r c = some p ∧ 1 ≤ p ∧ p ≤ NWK) ∧
      (∀ r c r1 c1, inSkyline H r c → inSkyline H r1 c1 →
        offsetUp DA r c = offsetUp DA r1 c1 → r = r1 ∧ c = c1) := by
  obtain ⟨DA, hc, _, hall⟩ := CalculateDiagnoalAddress_spec NEQ H DA0 hH hDA hfit
  subst hH
  have hoff : ∀ r c, r ≤ H.length → offset DA r c = some (diagonalOf H r - (r - c)) := by
    intro r c hr
    simp [offset, hall r hr]
  have hup : ∀ r c, r ≤ H.length → offsetUp DA r c = some (diagonalOf H r + (r - c)) := by
    intro r c hr
    simp [offsetUp, hall r hr]
  have hlow : ∀ r, r + 1 ≤ diagonalOf H r := by
    intro r
    unfold diagonalOf
    omega
  have hnext : ∀ r, r < H.length → diagonalOf H (r + 1) = diagonalOf H r + H.getD r 0 + 1 := by
    intro r hr
    have h1 : H[r]? = some H[r] := List.getElem?_eq_getElem hr
    rw [diagonalOf_succ H r _ h1]
    simp [List.getD, h1]
  have htop : ∀ r, r < H.length → diagonalOf H r + H.getD r 0 ≤ H.length + H.sum := by
    intro r hr
    have h1 := hnext r hr
    have h2 := diagonalOf_le H (r + 1) H.length (by omega)
    rw [diagonalOf_length] at h2
    omega
  have hcross : ∀ r c r1 c1, inSkyline H r c → inSkyline H r1 c1 → r < r1 →
      diagonalOf H r + (r - c) ≠ diagonalOf H r1 + (r1 - c1) := by
    intro r c r1 c1 hs _ hlt
    obtain ⟨_, hr, hh⟩ := hs
    have h1 := hnext r hr
    have h2 := diagonalOf_le H (r + 1) r1 (by omega)
    omega
  refine ⟨DA, H.length + H.sum, hc, ?_, ?_, ?_, ?_, ?_, ?_⟩
  · rintro r c ⟨hcr, hr, hh⟩
    refine ⟨_, hoff r c (by omega), ?_, ?_⟩
    · have := hlow r
      omega
    · have := htop r hr
      omega
  · intro i hi
    rw [hoff i i (by omega), hall i (by omega)]
    simp
  · rintro r c c1 ⟨hcr, hr, _⟩ ⟨hcr1, _, _⟩ heq
    rw [hoff r c (by omega), hoff r c1 (by omega)] at heq
    have := Option.some.inj heq
    have := hlow r
    omega
  · intro i j hi hj heq
    rw [hoff i i (by omega), hoff j j (by omega)] at heq
    have h := Option.some.inj heq
    simp only [Nat.sub_self, Nat.sub_zero] at h
    by_contra hne
    rcases Nat.lt_or_gt_of_ne hne with hl | hl
    · have := diagonalOf_lt H i j hl
      omega
    · have := diagonalOf_lt H j i hl
      omega
  · rintro r c ⟨hcr, hr, hh⟩
    refine ⟨_, hup r c (by omega), ?_, ?_⟩
    · have := hlow r
      omega
    · have := htop r hr
      omega
  · intro r c r1 c1 hs hs1 heq
    rw [hup r c (by have := hs.2.1; omega), hup r1 c1 (by have := hs1.2.1; omega)] at heq
    have h := Option.some.inj heq
    have hrr : r = r1 := by
      by_contra hne
      rcases Nat.lt_or_gt_of_ne hne with hl | hl
      · exact hcross r c r1 c1 hs hs1 hl h
      · exact hcross r1 c1 r c hs1 hs hl h.symm
    subst hrr
    obtain ⟨hcr, _, _⟩ := hs
    obtain ⟨hcr1, _, _⟩ := hs1
    exact ⟨rfl, by omega⟩

/-- Witness of the amended C6: column heights `[0, 1, 2]`. -/
theorem offset_in_buffer_witness :
    ∃ DA NWK, CalculateDiagnoalAddress 3 [0, 1, 2] [0, 0, 0, 0] = .ok (DA, NWK) ∧
      (∀ r c, inSkyline [0, 1, 2] r c → ∃ p, offset DA r c = some p ∧ 1 ≤ p ∧ p ≤ NWK) ∧
      (∀ i, i < 3 → offset DA i i = DA[i]?) ∧
      (∀ r c c1, inSkyline [0, 1, 2] r c → inSkyline [0, 1, 2] r c1 →
        offset DA r c = offset DA r c1 → c = c1) ∧
      (∀ i j, i < 3 → j < 3 → offset DA i i = offset DA j j → i = j) ∧
      (∀ r c, inSkyline [0, 1, 2] r c → ∃ p, offsetUp DA r c = some p ∧ 1 ≤ p ∧ p ≤ NWK) ∧
      (∀ r c r1 c1, inSkyline [0, 1, 2] r c → inSkyline [0, 1, 2] r1 c1 →
        offsetUp DA r c = offsetUp DA r1 c1 → r = r1 ∧ c = c1) :=
  offset_in_buffer 3 [0, 1, 2] [0, 0, 0, 0] (by decide) (by decide) (by decide)

/-! ## Skyline layout: the claims on the column heights -/

/-- C3: starting from a column-height array of length `NEQ` that is all zero,
with `CalculateColumnHeight` the update of the spec and all equation numbers
of the elements at most `NEQ`, the loop of `CalculateColumnHeights` over all
groups and elements returns an array `H` of length `NEQ` in which, for every
equation `e` in `1 .. NEQ`, `H[e-1]` is the maximum of `e - m` over all
elements containing `e` (0 if none); every element set list with a
permutation of the same elements gives the same `H`; and for `NEQ ≥ 1` the
whole function returns this `H`. -/
theorem CalculateColumnHeights_heights (NEQ : Nat) (ElementSetList Permuted : List (List CElement))
    (hrange : ∀ g, g ∈ ElementSetList → ∀ el, el ∈ g →
      ∀ e, e ∈ el.LocationMatrix → e ≤ NEQ)
    (hperm : List.Perm ElementSetList.flatten Permuted.flatten) :
    ∃ H, groupLoop ElementSetList (List.replicate NEQ 0) = .ok H ∧ H.length = NEQ ∧
      (∀ e, 1 ≤ e → e ≤ NEQ → H[e - 1]? = some (expectedHeight ElementSetList.flatten e)) ∧
      groupLoop Permuted (List.replicate NEQ 0) = .ok H ∧
      (1 ≤ NEQ → ∃ MK,
        CalculateColumnHeights NEQ ElementSetList (List.replicate NEQ 0) = .ok (H, MK)) := by
  have hrange1 : ∀ g, g ∈ Permuted → ∀ el, el ∈ g →
      ∀ e, e ∈ el.LocationMatrix → e ≤ NEQ := by
    intro g hg el hel e he
    have h1 : el ∈ Permuted.flatten := List.mem_flatten.mpr ⟨g, hg, hel⟩
    obtain ⟨g0, hg0, hel0⟩ := List.mem_flatten.mp (hperm.mem_iff.mpr h1)
    exact hrange g0 hg0 el hel0 e he
  obtain ⟨H, hok, hlen, hget⟩ := groupLoop_spec ElementSetList (List.replicate NEQ 0)
    (by simpa using hrange)
  obtain ⟨H1, hok1, hlen1, hget1⟩ := groupLoop_spec Permuted (List.replicate NEQ 0)
    (by simpa using hrange1)
  rw [List.length_replicate] at hlen hlen1
  have hsame : H1 = H := by
    apply List.ext_getElem?
    intro k
    rw [hget k, hget1 k]
    cases (List.replicate NEQ 0)[k]? with
    | none => rfl
    | some h =>
      simp only [Option.map_some']
      rw [expectedHeight_perm _ _ hperm (k + 1)]
  refine ⟨H, hok, hlen, ?_, by rw [hok1, hsame], ?_⟩
  · intro e he1 he2
    have hee : e - 1 + 1 = e := by omega
    have hlt : e - 1 < NEQ := by omega
    rw [hget (e - 1), List.getElem?_replicate, if_pos hlt, hee]
    simp
  · intro hpos
    have h0 : H[0]? = some H[0] := List.getElem?_eq_getElem (by omega)
    obtain ⟨MK, hMK⟩ := maxLoop_ok H (NEQ - 1) 1 H[0] (by omega)
    refine ⟨uadd MK 1, ?_⟩
    unfold CalculateColumnHeights
    rw [hok]
    simp only []
    rw [readAt_ok _ H 0 _ h0]
    simp only []
    rw [hMK]

/-- Witness of C3: a single element with the equations `{3, 5}` and
`NEQ = 5` gives `H[4] = 2` and `H[2] = 0`. -/
theorem CalculateColumnHeights_heights_witness :
    (∀ g, g ∈ sampleElements → ∀ el, el ∈ g → ∀ e, e ∈ el.LocationMatrix → e ≤ 5) ∧
    ∃ H, groupLoop sampleElements (List.replicate 5 0) = .ok H ∧
      H[4]? = some 2 ∧ H[2]? = some 0 := by
  have hr : ∀ g, g ∈ sampleElements → ∀ el, el ∈ g →
      ∀ e, e ∈ el.LocationMatrix → e ≤ 5 := by decide
  obtain ⟨H, h1, _, h3, _, _⟩ :=
    CalculateColumnHeights_heights 5 sampleElements sampleElements hr (List.Perm.refl _)
  exact ⟨hr, H, h1, h3 5 (by decide) (by decide), h3 3 (by decide) (by decide)⟩

/-- C9 (the code departs from the claim): for a model with `NEQ = 0`, where
every entry of every local-to-global list is 0 and the column-height array
has length 0, `CalculateColumnHeights` reads `ColumnHeights[0]`, an index
outside the array. -/
theorem CalculateColumnHeights_empty_model (ElementSetList : List (List CElement))
    (hzero : ∀ g, g ∈ ElementSetList → ∀ el, el ∈ g →
      ∀ e, e ∈ el.LocationMatrix → e = 0) :
    CalculateColumnHeights 0 ElementSetList [] =
      .error (.outOfBounds .ColumnHeights 0) := by
  obtain ⟨H, hok, hlen, _⟩ := groupLoop_spec ElementSetList []
    (by
      intro g hg el hel e he
      rw [hzero g hg el hel e he]
      exact Nat.zero_le _)
  have hH : H = [] := List.length_eq_zero.mp (by simpa using hlen)
  subst hH
  unfold CalculateColumnHeights
  rw [hok]
  rfl

/-- Witness of C9: one bar element between two fully constrained nodes. -/
theorem CalculateColumnHeights_empty_model_witness :
    (∀ g, g ∈ constrainedElements → ∀ el, el ∈ g →
      ∀ e, e ∈ el.LocationMatrix → e = 0) ∧
    CalculateColumnHeights 0 constrainedElements [] =
      .error (.outOfBounds .ColumnHeights 0) :=
  ⟨by decide, CalculateColumnHeights_empty_model constrainedElements (by decide)⟩

/-! ## Load assembly: the claims -/

theorem AssembleForce_valid {R : Type} [AddMonoid R]
    (NLCASE : Nat) (LoadCases : List (CLoadCaseData R))
    (NodeList : List CNode) (NEQ : Nat) (Force : List R) (LoadCase : Nat)
    (LoadData : CLoadCaseData R)
    (hNL : NLCASE < UINT_SIZE) (hNEQ : NEQ < UINT_SIZE) (hF : Force.length = NEQ)
    (h1 : 1 ≤ LoadCase) (h2 : LoadCase ≤ NLCASE)
    (hLD : LoadCases[LoadCase - 1]? = some LoadData)
    (hvalid : ∀ l, l < LoadData.nloads → validLoad NodeList NEQ LoadData l) :
    ∃ F, AssembleForce NLCASE LoadCases NodeList NEQ Force LoadCase = .ok (true, F) ∧
      F.length = NEQ ∧
      ∀ k, F[k]? = if k < NEQ then some (loadSum NodeList LoadData (k + 1)) else none := by
  obtain ⟨F, hok, hlen, hget⟩ := forceLoop_spec NodeList LoadData NEQ hNEQ LoadData.nloads 0
    (List.replicate NEQ 0) (List.length_replicate _ _)
    (fun l _ hl => hvalid l (by omega))
  refine ⟨F, ?_, hlen, ?_⟩
  · unfold AssembleForce
    rw [if_neg (by omega), clear_spec _ Force NEQ hF]
    simp only []
    rw [usub_one LoadCase h1 (by omega), readAt_ok _ _ _ _ hLD]
    simp only []
    rw [hok]
  · intro k
    rw [hget k, List.getElem?_replicate]
    by_cases hk : k < NEQ
    · rw [if_pos hk, if_pos hk]
      simp [loadSum]
    · rw [if_neg hk, if_neg hk]
      rfl

/-- C7: for every load case index `LoadCase` in `1 .. NLCASE` whose loads all
reference an existing node, an existing direction and a free degree of
freedom (equation number in `1 .. NEQ`), `AssembleForce` returns true and
leaves, for every equation `e` in `1 .. NEQ`, `Force[e-1]` equal to the sum
of the magnitudes of exactly those loads whose degree of freedom has equation
number `e`, whatever the force vector held before; calling it again on the
result gives the same force vector. -/
theorem AssembleForce_sums {R : Type} [AddMonoid R]
    (NLCASE : Nat) (LoadCases : List (CLoadCaseData R))
    (NodeList : List CNode) (NEQ : Nat) (Force : List R) (LoadCase : Nat)
    (LoadData : CLoadCaseData R)
    (hNL : NLCASE < UINT_SIZE) (hNEQ : NEQ < UINT_SIZE) (hF : Force.length = NEQ)
    (h1 : 1 ≤ LoadCase) (h2 : LoadCase ≤ NLCASE)
    (hLD : LoadCases[LoadCase - 1]? = some LoadData)
    (hvalid : ∀ l, l < LoadData.nloads → validLoad NodeList NEQ LoadData l) :
    ∃ F, AssembleForce NLCASE LoadCases NodeList NEQ Force LoadCase = .ok (true, F) ∧
      F.length = NEQ ∧
      (∀ e, 1 ≤ e → e ≤ NEQ → F[e - 1]? = some (loadSum NodeList LoadData e)) ∧
      AssembleForce NLCASE LoadCases NodeList NEQ F LoadCase = .ok (true, F) := by
  obtain ⟨F, hok, hlen, hget⟩ := AssembleForce_valid NLCASE LoadCases NodeList NEQ Force
    LoadCase LoadData hNL hNEQ hF h1 h2 hLD hvalid
  obtain ⟨F1, hok1, _, hget1⟩ := AssembleForce_valid NLCASE LoadCases NodeList NEQ F
    LoadCase LoadData hNL hNEQ hlen h1 h2 hLD hvalid
  have hsame : F1 = F := by
    apply List.ext_getElem?
    intro k
    rw [hget k, hget1 k]
  refine ⟨F, hok, hlen, ?_, by rw [hok1, hsame]⟩
  intro e he1 he2
  have hee : e - 1 + 1 = e := by omega
  rw [hget (e - 1), if_pos (by omega), hee]

theorem sampleLoads_valid :
    ∀ l, l < sampleLoads.nloads → validLoad numberedNodes 4 sampleLoads l := by
  intro l hl
  have h3 : l < 3 := hl
  interval_cases l
  · exact ⟨1, 2, 5, 1, rfl, rfl, rfl, by decide, by decide, by decide, by decide, rfl,
      by decide, by decide⟩
  · exact ⟨2, 3, 7, 4, rfl, rfl, rfl, by decide, by decide, by decide, by decide, rfl,
      by decide, by decide⟩
  · exact ⟨1, 2, 11, 1, rfl, rfl, rfl, by decide, by decide, by decide, by decide, rfl,
      by decide, by decide⟩

/-- Witness of C7: the load case `sampleLoads` on `numberedNodes`, with a
force vector that held other values before; the two loads 5 and 11 on
equation 1 add up to 16. -/
theorem AssembleForce_sums_witness :
    AssembleForce 1 [sampleLoads] numberedNodes 4 [9, 9, 9, 9] 1 =
      .ok (true, [16, 0, 0, 7]) ∧
    ∃ F, AssembleForce 1 [sampleLoads] numberedNodes 4 [9, 9, 9, 9] 1 = .ok (true, F) ∧
      F.length = 4 ∧
      (∀ e, 1 ≤ e → e ≤ 4 → F[e - 1]? = some (loadSum numberedNodes sampleLoads e)) ∧
      AssembleForce 1 [sampleLoads] numberedNodes 4 F 1 = .ok (true, F) :=
  ⟨by decide,
    AssembleForce_sums 1 [sampleLoads] numberedNodes 4 [9, 9, 9, 9] 1 sampleLoads
      (by decide) (by decide) rfl (by decide) (by decide) rfl sampleLoads_valid⟩

/-- C8 (the code departs from the claim): when a load case in `1 .. NLCASE`
has a load on a constrained degree of freedom (equation number 0) and the
loads before it are valid, `AssembleForce` neither returns false nor skips
the load: it accesses `Force[0 - 1]`, which for `unsigned int` is index
`4294967295`, outside the force vector. -/
theorem AssembleForce_constrained_load {R : Type} [AddMonoid R]
    (NLCASE : Nat) (LoadCases : List (CLoadCaseData R))
    (NodeList : List CNode) (NEQ : Nat) (Force : List R) (LoadCase : Nat)
    (LoadData : CLoadCaseData R) (j : Nat)
    (hNL : NLCASE < UINT_SIZE) (hNEQ : NEQ < UINT_SIZE) (hF : Force.length = NEQ)
    (h1 : 1 ≤ LoadCase) (h2 : LoadCase ≤ NLCASE)
    (hLD : LoadCases[LoadCase - 1]? = some LoadData)
    (hj : j < LoadData.nloads)
    (hvalid : ∀ l, l < j → validLoad NodeList NEQ LoadData l)
    (hcon : constrainedLoad NodeList LoadData j) :
    AssembleForce NLCASE LoadCases NodeList NEQ Force LoadCase =
      .error (.outOfBounds .Force 4294967295) := by
  unfold AssembleForce
  rw [if_neg (by omega), clear_spec _ Force NEQ hF]
  simp only []
  rw [usub_one LoadCase h1 (by omega), readAt_ok _ _ _ _ hLD]
  simp only []
  rw [forceLoop_fault NodeList LoadData NEQ hNEQ j LoadData.nloads 0 (List.replicate NEQ 0)
    (List.length_replicate _ _) (Nat.zero_le _) (by omega) (fun l _ hl => hvalid l hl) hcon]

/-- Witness of C8: the load case `constrainedLoads`, whose second load is on
direction 1 of the fully constrained node 3. -/
theorem AssembleForce_constrained_load_witness :
    constrainedLoad numberedNodes constrainedLoads 1 ∧
    AssembleForce 1 [constrainedLoads] numberedNodes 4 [0, 0, 0, 0] 1 =
      .error (.outOfBounds .Force 4294967295) :=
  ⟨⟨3, 1, 7, rfl, rfl, rfl, by decide, by decide, by decide, by decide, rfl⟩,
    AssembleForce_constrained_load 1 [constrainedLoads] numberedNodes 4 [0, 0, 0, 0] 1
      constrainedLoads 1 (by decide) (by decide) rfl (by decide) (by decide) rfl (by decide)
      (by
        intro l hl
        have h0 : l = 0 := by omega
        subst h0
        exact ⟨1, 2, 5, 1, rfl, rfl, rfl, by decide, by decide, by decide, by decide, rfl,
          by decide, by decide⟩)
      ⟨3, 1, 7, rfl, rfl, rfl, by decide, by decide, by decide, by decide, rfl⟩⟩

/-- C10 (the code departs from the claim): the guard of `AssembleForce` is
`LoadCase > NLCASE` only. Every `LoadCase` above `NLCASE` returns false with
the force vector unchanged, but `LoadCase = 0` passes the guard: the force
vector is cleared and `LoadCases[0 - 1]`, for `unsigned int` index
`4294967295`, is read outside the array of load cases. -/
theorem AssembleForce_LoadCase_zero {R : Type} [AddMonoid R]
    (NLCASE : Nat) (LoadCases : List (CLoadCaseData R))
    (NodeList : List CNode) (NEQ : Nat) (Force : List R)
    (hLC : LoadCases.length < UINT_SIZE) (hF : Force.length = NEQ) :
    AssembleForce NLCASE LoadCases NodeList NEQ Force 0 =
      .error (.outOfBounds .LoadCases 4294967295) ∧
    clear .Force Force NEQ = .ok (List.replicate NEQ 0) ∧
    ∀ LoadCase, NLCASE < LoadCase →
      AssembleForce NLCASE LoadCases NodeList NEQ Force LoadCase = .ok (false, Force) := by
  refine ⟨?_, clear_spec _ Force NEQ hF, ?_⟩
  · unfold AssembleForce
    rw [if_neg (by omega), clear_spec _ Force NEQ hF]
    simp only []
    rw [usub_zero_one, readAt_fault _ LoadCases 4294967295 (by
      have : UINT_SIZE = 4294967296 := by decide
      omega)]
  · intro LoadCase h
    unfold AssembleForce
    rw [if_pos h]

/-- Witness of C10: one load case, `LoadCase = 0`. -/
theorem AssembleForce_LoadCase_zero_witness :
    AssembleForce 1 [sampleLoads] numberedNodes 4 [9, 9, 9, 9] 0 =
      .error (.outOfBounds .LoadCases 4294967295) :=
  (AssembleForce_LoadCase_zero 1 [sampleLoads] numberedNodes 4 [9, 9, 9, 9]
    (by decide) rfl).1

end Stap
